import Mathlib

/-! Verification of the text-editing core of react-code-editor
(src/src/index.js).

The component keeps a bounded undo/redo history of timestamped records and
implements caret-aware key transforms (tab insertion, multi-line indent,
backspace dedent, newline auto-indent).  JavaScript strings are modelled as
lists of characters, array indices and the history offset as integers
(the offset can be -1), and timestamps as integers.  Fallible array reads
(stack[i] possibly undefined) are modelled with Option.
-/

namespace CodeEditor

def HISTORY_LIMIT : Nat := 100

def HISTORY_TIME_GAP : Int := 3000

/-- Record type of the source: a text value plus the selection range. -/
structure Record where
  value : List Char
  selectionStart : Nat
  selectionEnd : Nat
deriving DecidableEq, Repr

/-- A history stack entry: a record together with its timestamp. -/
structure Entry where
  record : Record
  timestamp : Int
deriving DecidableEq, Repr

/-- History type of the source: a stack of entries and a cursor offset. -/
structure History where
  stack : List Entry
  offset : Int
deriving DecidableEq, Repr

/-- Initial history of a session: empty stack, offset -1 (line 323). -/
def emptyHistory : History := { stack := [], offset := -1 }

/-- JavaScript array read a[i]: undefined (none) out of range or below 0. -/
def getAt {α : Type} (l : List α) (i : Int) : Option α :=
  if 0 ≤ i then l.get? i.toNat else none

/-- JavaScript array write a[i] = x at a valid index. -/
def setAt {α : Type} (l : List α) (i : Int) (a : α) : List α :=
  if 0 ≤ i then l.set i.toNat a else l

/-- JavaScript slice(a, b) for 0 ≤ a ≤ b: the elements with indices in [a, b). -/
def jsSlice {α : Type} (l : List α) (a b : Nat) : List α :=
  (l.take b).drop a

/-- JavaScript split('\n'): the value [""] on the empty string. -/
def splitNl : List Char → List (List Char)
  | [] => [[]]
  | c :: cs =>
    if c = '\n' then [] :: splitNl cs
    else
      match splitNl cs with
      | [] => [[c]]
      | l :: ls => (c :: l) :: ls

/-- JavaScript join('\n'). -/
def joinNl (ls : List (List Char)) : List Char :=
  (ls.intersperse ['\n']).flatten

/-- JavaScript split('\n').pop(): the text after the last newline. -/
def lastLineOf (cs : List Char) : List Char :=
  (splitNl cs).getLastD []

/-- A character matched by [a-z0-9] under the case-insensitive flag. -/
def isWordChar (c : Char) : Bool :=
  ('a' ≤ c && c ≤ 'z') || ('A' ≤ c && c ≤ 'Z') || ('0' ≤ c && c ≤ '9')

/-- Maximal run of word characters at the end of the line. -/
def trailingWord (cs : List Char) : List Char :=
  (cs.reverse.takeWhile isWordChar).reverse

/-- Capture group of the regex [^a-z0-9]([a-z0-9]+)$ with the i flag
(line 109).  The leftmost match whose group runs to the end of the string
is the maximal trailing run of word characters, and the required preceding
[^a-z0-9] character exists exactly when that run is shorter than the
whole string (the character just before a maximal run is not a word
character). -/
def matchLastWord (cs : List Char) : Option (List Char) :=
  let w := trailingWord cs
  if w.length ≠ 0 ∧ w.length < cs.length then some w else none

/-- Text of the line holding the caret, truncated at the caret: the source
computes value.substring(0, selectionStart).split('\n').pop()
(lines 112-123). -/
def currentLine (r : Record) : List Char :=
  lastLineOf (r.value.take r.selectionStart)

/-- Truncation and capacity trimming at the head of _recordChange
(lines 85-98): drop the redo tail, then if the length exceeds
HISTORY_LIMIT drop the oldest extras and shift the offset down,
floored at 0. -/
def truncAndTrim (h : History) : History :=
  if h.stack.length ≠ 0 ∧ h.offset > -1 then
    let stack1 := h.stack.take (h.offset + 1).toNat
    let count := stack1.length
    if count > HISTORY_LIMIT then
      let extras := count - HISTORY_LIMIT
      { stack := jsSlice h.stack extras count
        offset := max (h.offset - (extras : Int)) 0 }
    else
      { stack := stack1, offset := h.offset }
  else h

/-- Word-coalescing test of _recordChange (lines 105-125): the previous
entry is recent, both truncated current lines have a trailing word, and
the new word extends the previous one (startsWith, case-sensitive). -/
def coalesces (last : Entry) (record : Record) (timestamp : Int) : Bool :=
  if timestamp - last.timestamp < HISTORY_TIME_GAP then
    match matchLastWord (currentLine last.record),
          matchLastWord (currentLine record) with
    | some previous, some current => previous.isPrefixOf current
    | _, _ => false
  else false

/-- The method _recordChange (lines 82-138). -/
def recordChange (h : History) (record : Record) (overwrite : Bool)
    (timestamp : Int) : History :=
  let h1 := truncAndTrim h
  let pushed : History :=
    { stack := h1.stack ++ [{ record := record, timestamp := timestamp }]
      offset := h1.offset + 1 }
  if overwrite then
    match getAt h1.stack h1.offset with
    | some last =>
      if coalesces last record timestamp then
        { stack := setAt h1.stack h1.offset
            { record := record, timestamp := timestamp }
          offset := h1.offset }
      else pushed
    | none => pushed
  else pushed

/-- The editor session as seen by the history logic: the history plus the
external textarea snapshot (this._input). -/
structure Session where
  history : History
  input : Record
deriving DecidableEq, Repr

/-- The method _updateInput (lines 140-151): write the record back into
the textarea and notify onValueChange. -/
def updateInput (s : Session) (record : Record) : Session :=
  { s with input := record }

/-- Selection capture at the head of _applyEdits (lines 154-164): rewrite
the current entry's selection to the live selection of the textarea. -/
def captureSelection (s : Session) : Session :=
  match getAt s.history.stack s.history.offset with
  | some last =>
    let patchedRecord : Record :=
      { last.record with
        selectionStart := s.input.selectionStart,
        selectionEnd := s.input.selectionEnd }
    let patched : Entry := { last with record := patchedRecord }
    let newStack := setAt s.history.stack s.history.offset patched
    { s with history := { s.history with stack := newStack } }
  | none => s

/-- The method _applyEdits (lines 153-169): capture the live selection,
record the change without overwrite, then update the textarea.  The
timestamp of the new entry is passed explicitly (Date.now()). -/
def applyEdits (s : Session) (record : Record) (now : Int) : Session :=
  let s1 := captureSelection s
  let s2 := { s1 with history := recordChange s1.history record false now }
  updateInput s2 record

/-- The method _undoEdit (lines 171-182), returning the record written to
the textarea when one exists (none models the silent no-op). -/
def undoStep (s : Session) : Session × Option Record :=
  match getAt s.history.stack (s.history.offset - 1) with
  | some e =>
    ({ history := { s.history with offset := max (s.history.offset - 1) 0 },
       input := e.record }, some e.record)
  | none => (s, none)

/-- The method _redoEdit (lines 184-195), returning the record written to
the textarea when one exists. -/
def redoStep (s : Session) : Session × Option Record :=
  match getAt s.history.stack (s.history.offset + 1) with
  | some e =>
    let newOffset := min (s.history.offset + 1) ((s.history.stack.length : Int) - 1)
    ({ history := { s.history with offset := newOffset },
       input := e.record }, some e.record)
  | none => (s, none)

/-- Record a list of edits through _applyEdits, all with timestamp 0 (the
overwrite=false path never reads timestamps). -/
def recordSession (s : Session) (rs : List Record) : Session :=
  rs.foldl (fun s r => applyEdits s r 0) s

/-- Iterate _undoEdit n times. -/
def iterUndo : Nat → Session → Session
  | 0, s => s
  | n + 1, s => iterUndo n (undoStep s).1

/-- Iterate _redoEdit n times, collecting the records written to the
textarea in order. -/
def iterRedo : Nat → Session → Session × List Record
  | 0, s => (s, [])
  | n + 1, s =>
    let p := redoStep s
    let q := iterRedo n p.1
    (q.1, p.2.toList ++ q.2)

/-- Key-handler configuration (props tabSize and insertSpaces). -/
structure Config where
  tabSize : Nat
  insertSpaces : Bool
deriving DecidableEq, Repr

/-- Line 201: (insertSpaces ? ' ' : '     ').repeat(tabSize); the second
literal is five space characters. -/
def tabCharacter (cfg : Config) : List Char :=
  (List.replicate cfg.tabSize
    (if cfg.insertSpaces then [' '] else [' ', ' ', ' ', ' ', ' '])).flatten

/-- Tab branch of _handleKeyDown (lines 203-242).  Tab always intercepts;
the result is the record passed to _applyEdits. -/
def tabEdit (cfg : Config) (r : Record) : Record :=
  let tab := tabCharacter cfg
  if r.selectionStart = r.selectionEnd then
    { value := r.value.take r.selectionStart ++ tab ++ r.value.drop r.selectionEnd
      selectionStart := r.selectionStart + tab.length
      selectionEnd := r.selectionStart + tab.length }
  else
    let startLine := (splitNl (r.value.take r.selectionStart)).length - 1
    let endLine := (splitNl (r.value.take r.selectionEnd)).length - 1
    { value := joinNl ((splitNl r.value).mapIdx fun i line =>
        if startLine ≤ i ∧ i ≤ endLine then tab ++ line else line)
      selectionStart := r.selectionStart + tab.length
      selectionEnd := r.selectionEnd + tab.length * (endLine - startLine + 1) }

/-- Backspace branch of _handleKeyDown (lines 243-262): some result means
the event is intercepted (preventDefault) and the record applied; none
means the default delete behaviour passes through. -/
def backspaceEdit (cfg : Config) (r : Record) : Option Record :=
  let tab := tabCharacter cfg
  let hasSelection := r.selectionStart ≠ r.selectionEnd
  let textBeforeCaret := r.value.take r.selectionStart
  if tab.isSuffixOf textBeforeCaret ∧ ¬hasSelection then
    some
      { value := r.value.take (r.selectionStart - tab.length) ++
          r.value.drop r.selectionEnd
        selectionStart := r.selectionStart - tab.length
        selectionEnd := r.selectionStart - tab.length }
  else none

/-- A character matched by the regex class backslash-s of JavaScript
(ECMAScript WhiteSpace and LineTerminator). -/
def isJsSpace (c : Char) : Bool :=
  c = ' ' || c = '\t' || c = '\n' || c = '\r' || c = '\u000b' ||
  c = '\u000c' || c = ' ' || c = ' ' ||
  (' ' ≤ c && c ≤ ' ') || c = ' ' || c = ' ' ||
  c = ' ' || c = ' ' || c = '　' || c = '﻿'

/-- Enter branch of _handleKeyDown (lines 263-291): some result means the
event is intercepted and the record applied; none means the default
newline passes through.  line.match of a ^ backslash-s + regex yields the
maximal leading whitespace run, which exists (and is truthy) exactly when
it is non-empty. -/
def enterEdit (r : Record) : Option Record :=
  if r.selectionStart = r.selectionEnd then
    let line := lastLineOf (r.value.take r.selectionStart)
    let matched := line.takeWhile isJsSpace
    if matched.length ≠ 0 then
      let indent := '\n' :: matched
      some
        { value := r.value.take r.selectionStart ++ indent ++
            r.value.drop r.selectionEnd
          selectionStart := r.selectionStart + indent.length
          selectionEnd := r.selectionStart + indent.length }
    else none
  else none

/-- Run a sequence of _recordChange calls (record, overwrite, timestamp)
on the initially empty history of a fresh session. -/
def runRecords (ops : List (Record × Bool × Int)) : History :=
  ops.foldl (fun h o => recordChange h o.1 o.2.1 o.2.2) emptyHistory

/-- Default record used to total-ize lookups in statements. -/
def defaultRecord : Record := { value := [], selectionStart := 0, selectionEnd := 0 }

/-- The record stored at stack position n (defaultRecord out of range). -/
def recAt (es : List Entry) (n : Nat) : Record :=
  ((es.get? n).getD { record := defaultRecord, timestamp := 0 }).record

/-- Stack entries of a list of records, all with timestamp 0. -/
def entriesOf (rs : List Record) : List Entry :=
  rs.map (fun r => { record := r, timestamp := 0 })

/-- The i-th probe record: empty value, collapsed selection at i. -/
def recI (i : Nat) : Record := { value := [], selectionStart := i, selectionEnd := i }

/-- A sequence of 102 distinct recorded edits, enough to overflow the
capacity limit of the history. -/
def rs102 : List Record := (List.range 102).map recI

/-- The first 101 of those edits. -/
def rs101 : List Record := (List.range 101).map recI

/-- The records surviving on the stack after all 102 edits: the first one
was trimmed away. -/
def vs101 : List Record := rs101.drop 1 ++ [recI 101]

/-- Session state right after an edit recorded on a full stack: the
oldest record was trimmed, the new one pushed, the offset sits at
HISTORY_LIMIT. -/
def overState (us : List Record) (r : Record) : Session :=
  { history := { stack := entriesOf (us.drop 1 ++ [r]), offset := ((HISTORY_LIMIT : Nat) : Int) },
    input := r }

/-- Concrete fixture: a two-edit session history. -/
def rsW : List Record :=
  [{ value := ("a").data, selectionStart := 1, selectionEnd := 1 },
   { value := ("ab").data, selectionStart := 2, selectionEnd := 2 }]

/-- Concrete fixture: a stack entry holding " fo" with the caret at 3. -/
def lastFo : Entry :=
  { record := { value := (" fo").data, selectionStart := 3, selectionEnd := 3 },
    timestamp := 0 }

/-- Concrete fixture: a one-entry history holding lastFo. -/
def histFo : History := { stack := [lastFo], offset := 0 }

/-- Concrete fixture: the candidate " foo" with the caret at 4. -/
def candFoo : Record := { value := (" foo").data, selectionStart := 4, selectionEnd := 4 }

/-- Concrete fixture: the value "ab" with a collapsed selection at 1. -/
def rAB : Record := { value := ("ab").data, selectionStart := 1, selectionEnd := 1 }

/-- Concrete fixture: a fresh session looking at rAB. -/
def sAB : Session := { history := emptyHistory, input := rAB }

/-- Session state after recording the list us, starting from a fresh
session whose textarea held b. -/
def midState (us : List Record) (b : Record) : Session :=
  { history := { stack := entriesOf us, offset := (us.length : Int) - 1 },
    input := us.getLastD b }

/-- Session whose history stack is es with the cursor at index i and the
textarea showing the record stored there. -/
def idxState (es : List Entry) (i : Nat) : Session :=
  { history := { stack := es, offset := (i : Int) }, input := recAt es i }

/-- Invariant of reachable histories: at most HISTORY_LIMIT + 1 entries, and
the offset is -1 exactly on the empty stack, otherwise a valid index. -/
def HistInv (h : History) : Prop :=
  h.stack.length ≤ HISTORY_LIMIT + 1 ∧
  ((h.stack.length = 0 ∧ h.offset = -1) ∨
    (0 ≤ h.offset ∧ h.offset ≤ (h.stack.length : Int) - 1))

/-! Helper lemmas about the list and history primitives. -/

theorem set_get_eq_self {α : Type} :
    ∀ (l : List α) (n : Nat) (a : α), l.get? n = some a → l.set n a = l
  | [], _, _, h => nomatch h
  | b :: t, 0, a, h => by
      rw [List.get?_cons_zero] at h
      injection h with h
      subst h
      rfl
  | b :: t, n + 1, a, h => by
      rw [List.get?_cons_succ] at h
      show b :: t.set n a = b :: t
      rw [set_get_eq_self t n a h]

theorem length_setAt {α : Type} (l : List α) (i : Int) (a : α) :
    (setAt l i a).length = l.length := by
  unfold setAt
  split <;> simp

theorem setAt_getAt_self {α : Type} (l : List α) (i : Int) (a : α)
    (hg : getAt l i = some a) : setAt l i a = l := by
  unfold getAt at hg
  unfold setAt
  by_cases h0 : 0 ≤ i
  · rw [if_pos h0]
    rw [if_pos h0] at hg
    exact set_get_eq_self l i.toNat a hg
  · rw [if_neg h0] at hg
    cases hg

theorem getAt_some_bounds {α : Type} {l : List α} {i : Int} {a : α}
    (hg : getAt l i = some a) : 0 ≤ i ∧ i < (l.length : Int) := by
  unfold getAt at hg
  by_cases h0 : 0 ≤ i
  · rw [if_pos h0] at hg
    obtain ⟨h, _⟩ := List.get?_eq_some.mp hg
    omega
  · rw [if_neg h0] at hg
    cases hg

theorem getAt_coe {α : Type} (l : List α) (n : Nat) :
    getAt l (n : Int) = l.get? n := by
  simp [getAt]

theorem getAt_neg {α : Type} (l : List α) (i : Int) (h : i < 0) :
    getAt l i = none := by
  unfold getAt
  rw [if_neg (by omega)]

theorem truncAndTrim_eq_self (h : History)
    (hoff : h.offset = (h.stack.length : Int) - 1)
    (hlen : h.stack.length ≤ HISTORY_LIMIT) : truncAndTrim h = h := by
  unfold truncAndTrim
  by_cases hnil : h.stack.length = 0
  · rw [if_neg (by tauto)]
  · rw [if_pos ⟨hnil, by omega⟩]
    have htn : (h.offset + 1).toNat = h.stack.length := by omega
    simp only [htn, List.take_length]
    rw [if_neg (Nat.not_lt.mpr hlen)]

theorem coalesces_iff (last : Entry) (r : Record) (ts : Int) :
    coalesces last r ts = true ↔
      (ts - last.timestamp < HISTORY_TIME_GAP ∧
        ∃ p c, matchLastWord (currentLine last.record) = some p ∧
          matchLastWord (currentLine r) = some c ∧ p.isPrefixOf c = true) := by
  unfold coalesces
  by_cases hgap : ts - last.timestamp < HISTORY_TIME_GAP
  · rw [if_pos hgap]
    cases hA : matchLastWord (currentLine last.record) with
    | none => simp [hgap, hA]
    | some p =>
      cases hB : matchLastWord (currentLine r) with
      | none => simp [hgap, hA, hB]
      | some c => simp [hgap, hA, hB]
  · rw [if_neg hgap]
    simp [hgap]

theorem splitNl_ne_nil : ∀ cs : List Char, splitNl cs ≠ []
  | [] => by simp [splitNl]
  | c :: cs => by
      unfold splitNl
      by_cases hc : c = '\n'
      · simp [hc]
      · rw [if_neg hc]
        cases h : splitNl cs <;> simp

theorem splitNl_length : ∀ cs : List Char,
    (splitNl cs).length = cs.count '\n' + 1
  | [] => by simp [splitNl]
  | c :: cs => by
      unfold splitNl
      by_cases hc : c = '\n'
      · simp [hc, List.count_cons, splitNl_length cs]
      · rw [if_neg hc]
        cases h : splitNl cs with
        | nil => exact absurd h (splitNl_ne_nil cs)
        | cons l ls =>
          have hlen := splitNl_length cs
          rw [h] at hlen
          simp only [List.length_cons] at hlen ⊢
          simp [List.count_cons, hc]
          omega

theorem flatten_replicate_replicate {α : Type} (a : α) (k : Nat) :
    ∀ n, (List.replicate n (List.replicate k a)).flatten = List.replicate (n * k) a
  | 0 => by simp
  | n + 1 => by
      rw [List.replicate_succ, List.flatten_cons, flatten_replicate_replicate a k n,
        ← List.replicate_add]
      congr 1
      ring

theorem tabCharacter_eq (cfg : Config) :
    tabCharacter cfg =
      List.replicate (cfg.tabSize * (if cfg.insertSpaces then 1 else 5)) ' ' := by
  unfold tabCharacter
  by_cases hi : cfg.insertSpaces
  · rw [if_pos hi, if_pos hi]
    rw [show [' '] = List.replicate 1 ' ' from rfl, flatten_replicate_replicate]
  · rw [if_neg hi, if_neg hi]
    rw [show [' ', ' ', ' ', ' ', ' '] = List.replicate 5 ' ' from rfl,
      flatten_replicate_replicate]

theorem tabCharacter_length (cfg : Config) :
    (tabCharacter cfg).length = cfg.tabSize * (if cfg.insertSpaces then 1 else 5) := by
  rw [tabCharacter_eq]
  simp

theorem truncAndTrim_eq_small (h : History)
    (h0 : 0 ≤ h.offset) (h1 : h.offset ≤ (h.stack.length : Int) - 1)
    (hsmall : h.offset.toNat + 1 ≤ HISTORY_LIMIT) :
    truncAndTrim h = { stack := h.stack.take (h.offset.toNat + 1), offset := h.offset } := by
  unfold truncAndTrim
  rw [if_pos ⟨by omega, by omega⟩]
  simp only [List.length_take]
  rw [show min (h.offset + 1).toNat h.stack.length = (h.offset + 1).toNat by omega]
  rw [if_neg (by omega)]
  rw [show (h.offset + 1).toNat = h.offset.toNat + 1 by omega]

theorem truncAndTrim_eq_big (h : History)
    (h0 : 0 ≤ h.offset) (h1 : h.offset ≤ (h.stack.length : Int) - 1)
    (hbig : h.offset.toNat + 1 > HISTORY_LIMIT) :
    truncAndTrim h =
      { stack := jsSlice h.stack (h.offset.toNat + 1 - HISTORY_LIMIT) (h.offset.toNat + 1),
        offset := (HISTORY_LIMIT : Int) - 1 } := by
  have hH : HISTORY_LIMIT = 100 := rfl
  unfold truncAndTrim
  rw [if_pos ⟨by omega, by omega⟩]
  simp only [List.length_take]
  rw [show min (h.offset + 1).toNat h.stack.length = (h.offset + 1).toNat by omega]
  rw [if_pos (by omega)]
  rw [show (h.offset + 1).toNat = h.offset.toNat + 1 by omega]
  congr 1
  omega

theorem recordChange_cases (h : History) (r : Record) (ow : Bool) (ts : Int) :
    recordChange h r ow ts =
      { stack := (truncAndTrim h).stack ++ [{ record := r, timestamp := ts }],
        offset := (truncAndTrim h).offset + 1 } ∨
    recordChange h r ow ts =
      { stack := setAt (truncAndTrim h).stack (truncAndTrim h).offset
          { record := r, timestamp := ts },
        offset := (truncAndTrim h).offset } := by
  unfold recordChange
  cases hg : getAt (truncAndTrim h).stack (truncAndTrim h).offset with
  | none => cases ow <;> simp [hg]
  | some last =>
    cases ow
    · simp [hg]
    · by_cases hc : coalesces last r ts = true
      · right
        simp [hg, hc]
      · left
        simp [hg, hc]

theorem jsSlice_length {α : Type} (l : List α) (a b : Nat)
    (hb : b ≤ l.length) : (jsSlice l a b).length = b - a := by
  unfold jsSlice
  simp
  omega

theorem recordChange_inv (h : History) (r : Record) (ow : Bool) (ts : Int)
    (hinv : HistInv h) : HistInv (recordChange h r ow ts) := by
  have hH : HISTORY_LIMIT = 100 := rfl
  obtain ⟨hlen, hcase⟩ := hinv
  have tprops : 0 ≤ (truncAndTrim h).offset ∧
      (truncAndTrim h).offset = ((truncAndTrim h).stack.length : Int) - 1 ∧
      (truncAndTrim h).stack.length ≤ HISTORY_LIMIT ∨
      (truncAndTrim h).stack.length = 0 ∧ (truncAndTrim h).offset = -1 := by
    rcases hcase with ⟨hnil, hoff⟩ | ⟨h0, h1⟩
    · right
      have ht : truncAndTrim h = h := by
        unfold truncAndTrim
        rw [if_neg (by tauto)]
      rw [ht]
      exact ⟨hnil, hoff⟩
    · left
      by_cases hbig : h.offset.toNat + 1 > HISTORY_LIMIT
      · rw [truncAndTrim_eq_big h h0 h1 hbig]
        have hsl : (jsSlice h.stack (h.offset.toNat + 1 - HISTORY_LIMIT)
            (h.offset.toNat + 1)).length = HISTORY_LIMIT := by
          rw [jsSlice_length _ _ _ (by omega)]
          omega
        simp only [hsl]
        exact ⟨by omega, trivial, le_rfl⟩
      · rw [truncAndTrim_eq_small h h0 h1 (by omega)]
        simp only [List.length_take]
        omega
  rcases recordChange_cases h r ow ts with hq | hq <;> rw [hq] <;>
    unfold HistInv <;> simp only [List.length_append, List.length_cons,
      List.length_nil, length_setAt] <;>
    rcases tprops with ⟨t0, t1, t2⟩ | ⟨t0, t1⟩
  · constructor
    · omega
    · right
      constructor <;> omega
  · constructor
    · omega
    · right
      constructor <;> omega
  · constructor
    · omega
    · right
      constructor <;> omega
  · -- coalesce branch with empty trimmed stack: impossible getAt, but the
    -- bounds still hold vacuously through setAt on the empty stack
    constructor
    · omega
    · left
      constructor <;> omega

/-- Claim C1 (amended): after any number of record calls from a fresh
session, the stack holds at most HISTORY_LIMIT + 1 records (the capacity
check runs at the start of the next record call, before the push, so the
length momentarily reaches 101, and the oldest excess records are dropped
with the offset shifted down, floored at 0, only on that next call), and
the offset always stays within [-1, length(stack) - 1]. -/
theorem C1_history_bounds (ops : List (Record × Bool × Int)) :
    (runRecords ops).stack.length ≤ HISTORY_LIMIT + 1 ∧
    -1 ≤ (runRecords ops).offset ∧
    (runRecords ops).offset ≤ ((runRecords ops).stack.length : Int) - 1 := by
  unfold runRecords
  have key : ∀ (l : List (Record × Bool × Int)) (h : History), HistInv h →
      HistInv (l.foldl (fun h o => recordChange h o.1 o.2.1 o.2.2) h) := by
    intro l
    induction l with
    | nil => exact fun h hh => hh
    | cons o l ih => exact fun h hh => ih _ (recordChange_inv h o.1 o.2.1 o.2.2 hh)
  obtain ⟨hl, hc⟩ := key ops emptyHistory ⟨by simp [emptyHistory, HISTORY_LIMIT], by left; exact ⟨rfl, rfl⟩⟩
  refine ⟨hl, ?_, ?_⟩ <;> rcases hc with ⟨hn, ho⟩ | ⟨ha, hb⟩ <;> omega

set_option maxRecDepth 10000 in
/-- Claim C1 counterexample: 101 record calls leave 101 entries on the
stack, so the claimed bound length(stack) ≤ HISTORY_LIMIT (100) is false. -/
theorem C1_counterexample :
    ¬ ((runRecords (List.replicate 101
        ({ value := [], selectionStart := 0, selectionEnd := 0 }, false, 0))).stack.length
      ≤ HISTORY_LIMIT) := by decide

/-- Claim C2: record(candidate, overwrite) replaces stack[offset] in place
with the candidate (stack length unchanged, timestamp refreshed to now) if
and only if overwrite is true, a current record exists, it is younger than
HISTORY_TIME_GAP, the regex [^a-z0-9]([a-z0-9]+)$ (case-insensitive)
matches a trailing token in the current line of both the previous and the
candidate value (each truncated at its own selectionStart), and the
candidate token starts with the previous token; in every other case a new
record is pushed and the offset incremented.  Stated on histories in the
normal form reached by record calls (offset at the top, stack within the
capacity limit). -/
theorem C2_record_overwrite (h : History) (r : Record) (ow : Bool) (ts : Int)
    (hoff : h.offset = (h.stack.length : Int) - 1)
    (hlen : h.stack.length ≤ HISTORY_LIMIT) :
    ((ow = true ∧ ∃ last, getAt h.stack h.offset = some last ∧
        ts - last.timestamp < HISTORY_TIME_GAP ∧
        ∃ p c, matchLastWord (currentLine last.record) = some p ∧
          matchLastWord (currentLine r) = some c ∧ p.isPrefixOf c = true) →
      recordChange h r ow ts =
        { stack := setAt h.stack h.offset { record := r, timestamp := ts },
          offset := h.offset } ∧
      (setAt h.stack h.offset { record := r, timestamp := ts }).length =
        h.stack.length) ∧
    (¬ (ow = true ∧ ∃ last, getAt h.stack h.offset = some last ∧
        ts - last.timestamp < HISTORY_TIME_GAP ∧
        ∃ p c, matchLastWord (currentLine last.record) = some p ∧
          matchLastWord (currentLine r) = some c ∧ p.isPrefixOf c = true) →
      recordChange h r ow ts =
        { stack := h.stack ++ [{ record := r, timestamp := ts }],
          offset := h.offset + 1 }) := by
  have ht := truncAndTrim_eq_self h hoff hlen
  constructor
  · rintro ⟨how, last, hget, hgap, p, c, hp, hc, hpre⟩
    subst how
    have hco : coalesces last r ts = true :=
      (coalesces_iff last r ts).mpr ⟨hgap, p, c, hp, hc, hpre⟩
    refine ⟨?_, length_setAt _ _ _⟩
    unfold recordChange
    simp only [ht, hget, hco, if_true]
  · intro hnot
    unfold recordChange
    simp only [ht]
    cases how : ow with
    | false => simp [how]
    | true =>
      cases hget : getAt h.stack h.offset with
      | none => simp [how, hget]
      | some last =>
        have hco : coalesces last r ts = false := by
          cases hb : coalesces last r ts
          · rfl
          · obtain ⟨hgap, p, c, hp, hc, hpre⟩ := (coalesces_iff last r ts).mp hb
            exact absurd ⟨how, last, hget, hgap, p, c, hp, hc, hpre⟩ hnot
        simp [how, hget, hco]

/-- Claim C2 witness: an overwrite record extending the token "fo" of the
entry " fo" (caret 3) to "foo" within the time gap coalesces in place. -/
theorem C2_witness :
    recordChange histFo candFoo true 100 =
      { stack := [{ record := candFoo, timestamp := 100 }], offset := 0 } := by
  have hmain := (C2_record_overwrite histFo candFoo true 100
    (by decide) (by decide)).1
    ⟨rfl, lastFo, by decide, by decide,
      ['f', 'o'], ['f', 'o', 'o'], by decide, by decide, by decide⟩
  exact hmain.1.trans (by decide)

/-- Claim C4 counterexample: position 4 in "abcd" is the end of the value,
so Tab there cannot produce "ab  cd"; the transform inserts the two spaces
at the caret, after the d. -/
theorem C4_counterexample :
    ¬ (tabEdit { tabSize := 2, insertSpaces := true }
        { value := ("abcd").data, selectionStart := 4, selectionEnd := 4 } =
      { value := ("ab  cd").data, selectionStart := 6, selectionEnd := 6 }) := by
  decide

/-- Claim C4 (amended): Tab with a collapsed selection at position 4 in
"abcd" with tabSize 2 and insertSpaces true yields the value "abcd  " with
selection (6, 6). -/
theorem C4_tab_at_position_four :
    tabEdit { tabSize := 2, insertSpaces := true }
      { value := ("abcd").data, selectionStart := 4, selectionEnd := 4 } =
    { value := ("abcd  ").data, selectionStart := 6, selectionEnd := 6 } := by
  decide

/-- Claim C5: for every collapsed selection the Tab transform inserts
tabCharacter at the caret and moves the collapsed caret by its length,
where tabCharacter is one space (insertSpaces) or a fixed 5-character
whitespace literal repeated tabSize times, so its length is tabSize or
5 * tabSize. -/
theorem C5_tab_collapsed (cfg : Config) (r : Record)
    (hcol : r.selectionStart = r.selectionEnd) :
    tabEdit cfg r =
      { value := r.value.take r.selectionStart ++ tabCharacter cfg ++
          r.value.drop r.selectionStart,
        selectionStart := r.selectionStart + (tabCharacter cfg).length,
        selectionEnd := r.selectionStart + (tabCharacter cfg).length } ∧
    (tabCharacter cfg).length =
      (if cfg.insertSpaces then cfg.tabSize else 5 * cfg.tabSize) ∧
    (tabCharacter cfg).all isJsSpace = true := by
  refine ⟨?_, ?_, ?_⟩
  · unfold tabEdit
    rw [if_pos hcol, hcol]
  · rw [tabCharacter_length]
    by_cases hi : cfg.insertSpaces <;> simp [hi, Nat.mul_comm]
  · rw [tabCharacter_eq]
    simp only [List.all_eq_true]
    intro x hx
    rw [List.eq_of_mem_replicate hx]
    rfl

/-- Claim C5 witness: with insertSpaces false and tabSize 1, Tab at the
caret position 1 of "xy" inserts the 5-space unit. -/
theorem C5_witness :
    tabEdit { tabSize := 1, insertSpaces := false }
      { value := ("xy").data, selectionStart := 1, selectionEnd := 1 } =
    { value := ("x     y").data, selectionStart := 6, selectionEnd := 6 } := by
  have h := (C5_tab_collapsed { tabSize := 1, insertSpaces := false }
    { value := ("xy").data, selectionStart := 1, selectionEnd := 1 } rfl).1
  exact h.trans (by decide)

/-- Claim C6: with a non-collapsed selection the Tab transform prepends
tabCharacter to every line whose 0-based index lies between the counts of
newline characters before selectionStart and before selectionEnd, shifts
selectionStart by the tab length and selectionEnd by the tab length times
the number of touched lines. -/
theorem C6_tab_multiline (cfg : Config) (r : Record)
    (hsel : r.selectionStart ≠ r.selectionEnd) :
    tabEdit cfg r =
      { value := joinNl ((splitNl r.value).mapIdx fun i line =>
          if (r.value.take r.selectionStart).count '\n' ≤ i ∧
              i ≤ (r.value.take r.selectionEnd).count '\n'
          then tabCharacter cfg ++ line else line),
        selectionStart := r.selectionStart + (tabCharacter cfg).length,
        selectionEnd := r.selectionEnd + (tabCharacter cfg).length *
          ((r.value.take r.selectionEnd).count '\n' -
            (r.value.take r.selectionStart).count '\n' + 1) } := by
  unfold tabEdit
  rw [if_neg hsel]
  simp only [splitNl_length, Nat.add_sub_cancel]

/-- Claim C6 witness: Tab on "a\nb" with both lines selected and tabSize 2
yields "  a\n  b" with the selection shifted by 2 at the start and 4 at
the end. -/
theorem C6_witness :
    tabEdit { tabSize := 2, insertSpaces := true }
      { value := ("a\nb").data, selectionStart := 0, selectionEnd := 3 } =
    { value := ("  a\n  b").data, selectionStart := 2, selectionEnd := 7 } := by
  have h := C6_tab_multiline { tabSize := 2, insertSpaces := true }
    { value := ("a\nb").data, selectionStart := 0, selectionEnd := 3 } (by decide)
  exact h.trans (by decide)

/-- Claim C7: the Backspace dedent applies exactly when the selection is
collapsed and the text before the caret ends with tabCharacter; it then
deletes len(tabCharacter) characters ending at the caret and collapses the
caret there, and in every other case it does not intercept the event. -/
theorem C7_backspace_dedent (cfg : Config) (r : Record) :
    (r.selectionStart = r.selectionEnd →
      (tabCharacter cfg).isSuffixOf (r.value.take r.selectionStart) = true →
      backspaceEdit cfg r = some
        { value := r.value.take (r.selectionStart - (tabCharacter cfg).length) ++
            r.value.drop r.selectionStart,
          selectionStart := r.selectionStart - (tabCharacter cfg).length,
          selectionEnd := r.selectionStart - (tabCharacter cfg).length }) ∧
    ((r.selectionStart ≠ r.selectionEnd ∨
        (tabCharacter cfg).isSuffixOf (r.value.take r.selectionStart) = false) →
      backspaceEdit cfg r = none) := by
  constructor
  · intro hcol hsuf
    simp only [backspaceEdit]
    rw [if_pos ⟨hsuf, fun hne => hne hcol⟩, hcol]
  · intro hdis
    simp only [backspaceEdit]
    rcases hdis with hne | hsuf
    · rw [if_neg (fun hk => hk.2 hne)]
    · rw [if_neg (fun hk => by rw [hk.1] at hsuf; cases hsuf)]

/-- Claim C7 witness: Backspace just after the inserted two-space tab of
"ab  " removes both spaces, not one character. -/
theorem C7_witness :
    backspaceEdit { tabSize := 2, insertSpaces := true }
      { value := ("ab  ").data, selectionStart := 4, selectionEnd := 4 } =
    some { value := ("ab").data, selectionStart := 2, selectionEnd := 2 } := by
  have h := (C7_backspace_dedent { tabSize := 2, insertSpaces := true }
    { value := ("ab  ").data, selectionStart := 4, selectionEnd := 4 }).1
    rfl (by decide)
  exact h.trans (by decide)

/-- Claim C8: the Enter auto-indent applies exactly when the selection is
collapsed and the current line (text after the last newline, up to the
caret) begins with a non-empty whitespace run; it then inserts a newline
followed by that run and collapses the caret after the insertion, and in
every other case it does not intercept the event. -/
theorem C8_enter_autoindent (r : Record) :
    (r.selectionStart = r.selectionEnd →
      (lastLineOf (r.value.take r.selectionStart)).takeWhile isJsSpace ≠ [] →
      enterEdit r = some
        { value := r.value.take r.selectionStart ++
            ('\n' :: (lastLineOf (r.value.take r.selectionStart)).takeWhile isJsSpace) ++
            r.value.drop r.selectionStart,
          selectionStart := r.selectionStart +
            ('\n' :: (lastLineOf (r.value.take r.selectionStart)).takeWhile isJsSpace).length,
          selectionEnd := r.selectionStart +
            ('\n' :: (lastLineOf (r.value.take r.selectionStart)).takeWhile isJsSpace).length }) ∧
    ((r.selectionStart ≠ r.selectionEnd ∨
        (lastLineOf (r.value.take r.selectionStart)).takeWhile isJsSpace = []) →
      enterEdit r = none) := by
  constructor
  · intro hcol hrun
    simp only [enterEdit]
    rw [if_pos hcol, if_pos (fun h0 => hrun (List.length_eq_zero.mp h0)), hcol]
  · intro hdis
    simp only [enterEdit]
    rcases hdis with hne | hnilrun
    · rw [if_neg hne]
    · by_cases hcol : r.selectionStart = r.selectionEnd
      · rw [if_pos hcol, if_neg (by simp [hnilrun])]
      · rw [if_neg hcol]

/-- Claim C8 witness: Enter at the end of the line "  foo" inserts a
newline plus the two-space indent. -/
theorem C8_witness :
    enterEdit { value := ("  foo").data, selectionStart := 5, selectionEnd := 5 } =
    some { value := ("  foo\n  ").data, selectionStart := 8, selectionEnd := 8 } := by
  have h := (C8_enter_autoindent
    { value := ("  foo").data, selectionStart := 5, selectionEnd := 5 }).1
    rfl (by decide)
  exact h.trans (by decide)

/-- Claim C9: undo when stack[offset - 1] does not exist and redo when
stack[offset + 1] does not exist are silent no-ops (state unchanged, no
record written to the textarea, no notification), and for any in-range
offset both operations keep the offset within [-1, length(stack) - 1]. -/
theorem C9_undo_redo_bounds (s : Session)
    (hlo : -1 ≤ s.history.offset)
    (hhi : s.history.offset ≤ (s.history.stack.length : Int) - 1) :
    (getAt s.history.stack (s.history.offset - 1) = none → undoStep s = (s, none)) ∧
    (getAt s.history.stack (s.history.offset + 1) = none → redoStep s = (s, none)) ∧
    -1 ≤ (undoStep s).1.history.offset ∧
    (undoStep s).1.history.offset ≤ (s.history.stack.length : Int) - 1 ∧
    -1 ≤ (redoStep s).1.history.offset ∧
    (redoStep s).1.history.offset ≤ (s.history.stack.length : Int) - 1 := by
  refine ⟨fun hg => by unfold undoStep; rw [hg], fun hg => by unfold redoStep; rw [hg],
    ?_, ?_, ?_, ?_⟩
  · unfold undoStep
    cases hg : getAt s.history.stack (s.history.offset - 1) with
    | none => exact hlo
    | some e =>
      show -1 ≤ max (s.history.offset - 1) 0
      omega
  · unfold undoStep
    cases hg : getAt s.history.stack (s.history.offset - 1) with
    | none => exact hhi
    | some e =>
      obtain ⟨hb0, hb1⟩ := getAt_some_bounds hg
      show max (s.history.offset - 1) 0 ≤ (s.history.stack.length : Int) - 1
      omega
  · unfold redoStep
    cases hg : getAt s.history.stack (s.history.offset + 1) with
    | none => exact hlo
    | some e =>
      obtain ⟨hb0, hb1⟩ := getAt_some_bounds hg
      show -1 ≤ min (s.history.offset + 1) ((s.history.stack.length : Int) - 1)
      omega
  · unfold redoStep
    cases hg : getAt s.history.stack (s.history.offset + 1) with
    | none => exact hhi
    | some e =>
      show min (s.history.offset + 1) ((s.history.stack.length : Int) - 1) ≤
        (s.history.stack.length : Int) - 1
      omega

/-- Claim C9 witness: on the empty history both undo and redo are no-ops. -/
theorem C9_witness :
    undoStep { history := emptyHistory, input := defaultRecord } =
      ({ history := emptyHistory, input := defaultRecord }, none) ∧
    redoStep { history := emptyHistory, input := defaultRecord } =
      ({ history := emptyHistory, input := defaultRecord }, none) := by
  have h := C9_undo_redo_bounds { history := emptyHistory, input := defaultRecord }
    (by decide) (by decide)
  exact ⟨h.1 (by decide), h.2.1 (by decide)⟩

theorem nil_isPrefixOf_eq_true {α : Type} [BEq α] :
    ∀ l : List α, (([] : List α)).isPrefixOf l = true
  | [] => rfl
  | _ :: _ => rfl

theorem nil_isSuffixOf_eq_true {α : Type} [BEq α] (l : List α) :
    List.isSuffixOf [] l = true := by
  unfold List.isSuffixOf
  rw [List.reverse_nil]
  exact nil_isPrefixOf_eq_true _

theorem captureSelection_preserves (s : Session) :
    (captureSelection s).history.stack.length = s.history.stack.length ∧
    (captureSelection s).history.offset = s.history.offset := by
  unfold captureSelection
  cases hg : getAt s.history.stack s.history.offset with
  | none => exact ⟨rfl, rfl⟩
  | some last => exact ⟨length_setAt _ _ _, rfl⟩

theorem recordChange_false_eq (h : History) (r : Record) (ts : Int)
    (hoff : h.offset = (h.stack.length : Int) - 1)
    (hlen : h.stack.length ≤ HISTORY_LIMIT) :
    recordChange h r false ts =
      { stack := h.stack ++ [{ record := r, timestamp := ts }],
        offset := h.offset + 1 } := by
  unfold recordChange
  simp only [truncAndTrim_eq_self h hoff hlen]
  simp

/-- Claim C10: with tabSize 0 the tab character is empty, so every string
ends with it; Backspace with a collapsed selection is then always
intercepted, the applied record leaves the value and the selection
unchanged, and a new history record is still appended — Backspace deletes
nothing.  Stated on histories in the normal form reached by record
calls. -/
theorem C10_backspace_tabsize_zero (ins : Bool) (s : Session) (now : Int)
    (hcol : s.input.selectionStart = s.input.selectionEnd)
    (hoff : s.history.offset = (s.history.stack.length : Int) - 1)
    (hlen : s.history.stack.length ≤ HISTORY_LIMIT) :
    backspaceEdit { tabSize := 0, insertSpaces := ins } s.input = some s.input ∧
    (applyEdits s s.input now).input = s.input ∧
    (applyEdits s s.input now).history.stack.length = s.history.stack.length + 1 := by
  obtain ⟨hc1, hc2⟩ := captureSelection_preserves s
  refine ⟨?_, rfl, ?_⟩
  · obtain ⟨hist, inp⟩ := s
    obtain ⟨v, a, b⟩ := inp
    dsimp only at hcol
    subst hcol
    have htab : tabCharacter { tabSize := 0, insertSpaces := ins } = [] := by
      rw [tabCharacter_eq]
      simp
    have hsuf : (tabCharacter { tabSize := 0, insertSpaces := ins }).isSuffixOf
        (v.take a) = true := by
      rw [htab]
      exact nil_isSuffixOf_eq_true _
    simp only [backspaceEdit]
    rw [if_pos ⟨hsuf, fun hne => hne rfl⟩]
    simp [htab]
  · have happ : (applyEdits s s.input now).history =
        recordChange (captureSelection s).history s.input false now := rfl
    rw [happ, recordChange_false_eq _ _ _ (by rw [hc2, hc1]; exact hoff)
      (by rw [hc1]; exact hlen)]
    simp [hc1]

/-- Claim C10 witness: Backspace at caret 1 of "ab" with tabSize 0 is
intercepted, changes nothing, and pushes a history record. -/
theorem C10_witness :
    backspaceEdit { tabSize := 0, insertSpaces := true } rAB = some rAB ∧
    (applyEdits sAB rAB 0).history.stack.length = 1 := by
  have h := C10_backspace_tabsize_zero true sAB 0 rfl (by decide) (by decide)
  exact ⟨h.1, h.2.2⟩

/-! Machinery for the undo and redo round trip (claim C3). -/

theorem Record_eta (r : Record) :
    ({ value := r.value, selectionStart := r.selectionStart,
        selectionEnd := r.selectionEnd } : Record) = r := rfl

theorem Entry_eta (e : Entry) :
    ({ record := e.record, timestamp := e.timestamp } : Entry) = e := rfl

theorem entriesOf_append (us vs : List Record) :
    entriesOf (us ++ vs) = entriesOf us ++ entriesOf vs := by
  unfold entriesOf
  exact List.map_append _ _ _

theorem entriesOf_length (rs : List Record) : (entriesOf rs).length = rs.length := by
  unfold entriesOf
  exact List.length_map _ _

theorem get?_getLastD (rs : List Record) (b : Record) (h : rs ≠ []) :
    rs.get? (rs.length - 1) = some (rs.getLastD b) := by
  rw [← List.getLast?_eq_get?]
  cases hq : rs.getLast? with
  | none => exact absurd (List.getLast?_eq_none.mp hq) h
  | some v =>
    rw [List.getLastD_eq_getLast?, hq]
    rfl

theorem getAt_entriesOf_last (rs : List Record) (b : Record) (h : rs ≠ []) :
    getAt (entriesOf rs) ((rs.length : Int) - 1) =
      some { record := rs.getLastD b, timestamp := 0 } := by
  have hpos : 0 < rs.length := List.length_pos.mpr h
  rw [show (rs.length : Int) - 1 = ((rs.length - 1 : Nat) : Int) by omega]
  rw [getAt_coe]
  unfold entriesOf
  rw [List.get?_map, get?_getLastD rs b h]
  rfl

theorem recAt_entriesOf_last (rs : List Record) (b : Record) (h : rs ≠ []) :
    recAt (entriesOf rs) (rs.length - 1) = rs.getLastD b := by
  unfold recAt entriesOf
  rw [List.get?_map, get?_getLastD rs b h]
  rfl

theorem captureSelection_none (s : Session)
    (hg : getAt s.history.stack s.history.offset = none) :
    captureSelection s = s := by
  unfold captureSelection
  rw [hg]

theorem captureSelection_eq_self (s : Session) (e : Entry)
    (hg : getAt s.history.stack s.history.offset = some e)
    (h1 : e.record.selectionStart = s.input.selectionStart)
    (h2 : e.record.selectionEnd = s.input.selectionEnd) :
    captureSelection s = s := by
  unfold captureSelection
  rw [hg]
  dsimp only
  rw [← h1, ← h2, Record_eta, Entry_eta, setAt_getAt_self _ _ _ hg]

theorem captureSelection_midState (us : List Record) (b : Record) :
    captureSelection (midState us b) = midState us b := by
  cases husnil : us with
  | nil => exact captureSelection_none _ rfl
  | cons u t =>
    refine captureSelection_eq_self _
      { record := (u :: t).getLastD b, timestamp := 0 } ?_ rfl rfl
    exact getAt_entriesOf_last (u :: t) b (by simp)

theorem applyEdits_step (us : List Record) (b r : Record)
    (hlen : us.length ≤ HISTORY_LIMIT) :
    applyEdits (midState us b) r 0 = midState (us ++ [r]) b := by
  unfold applyEdits updateInput
  rw [captureSelection_midState]
  dsimp only
  rw [recordChange_false_eq (midState us b).history r 0
    (by simp [midState, entriesOf_length]) (by simpa [midState, entriesOf_length] using hlen)]
  unfold midState
  dsimp only
  congr 1
  · congr 1
    · rw [entriesOf_append]
      rfl
    · simp only [List.length_append, List.length_cons, List.length_nil]
      omega
  · rw [List.getLastD_concat]

theorem recordSession_steps : ∀ (rs us : List Record) (b : Record),
    us.length + rs.length ≤ HISTORY_LIMIT + 1 →
    recordSession (midState us b) rs = midState (us ++ rs) b
  | [], us, b, _ => by simp [recordSession]
  | r :: rs, us, b, h => by
      show recordSession (applyEdits (midState us b) r 0) rs = _
      rw [applyEdits_step us b r (by simp at h; omega)]
      rw [recordSession_steps rs (us ++ [r]) b (by simp at h ⊢; omega)]
      simp

theorem get?_eq_some_recAt (es : List Entry) (i : Nat) (hi : i < es.length) :
    ∃ e, es.get? i = some e ∧ e.record = recAt es i := by
  cases hq : es.get? i with
  | none =>
    rw [List.get?_eq_none] at hq
    omega
  | some e =>
    refine ⟨e, rfl, ?_⟩
    unfold recAt
    rw [hq]
    rfl

theorem undoStep_idxState (es : List Entry) (i : Nat) (hi : i < es.length) :
    (undoStep (idxState es i)).1 = idxState es (i - 1) := by
  cases i with
  | zero =>
    unfold undoStep idxState
    rw [show ((0 : Nat) : Int) - 1 = (-1 : Int) by omega]
    rw [getAt_neg es (-1) (by omega)]
  | succ j =>
    obtain ⟨e, hq, hr⟩ := get?_eq_some_recAt es j (by omega)
    unfold undoStep idxState
    rw [show ((j + 1 : Nat) : Int) - 1 = (j : Int) by push_cast; ring]
    rw [getAt_coe, hq]
    dsimp only
    rw [hr]
    rw [show max (j : Int) 0 = ((j : Nat) : Int) by omega]
    rw [Nat.add_sub_cancel]

theorem iterUndo_idxState : ∀ (k : Nat) (es : List Entry) (i : Nat), i < es.length →
    iterUndo k (idxState es i) = idxState es (i - k)
  | 0, es, i, _ => by
      show idxState es i = idxState es (i - 0)
      rfl
  | k + 1, es, i, hi => by
      show iterUndo k (undoStep (idxState es i)).1 = _
      rw [undoStep_idxState es i hi]
      rw [iterUndo_idxState k es (i - 1) (by omega)]
      congr 1
      omega

theorem redoStep_at (es : List Entry) (i : Nat) (hi : i + 1 < es.length) :
    redoStep (idxState es i) = (idxState es (i + 1), some (recAt es (i + 1))) := by
  obtain ⟨e, hq, hr⟩ := get?_eq_some_recAt es (i + 1) hi
  unfold redoStep idxState
  rw [show ((i : Nat) : Int) + 1 = ((i + 1 : Nat) : Int) by push_cast; ring]
  rw [getAt_coe, hq]
  dsimp only
  rw [hr]
  rw [show min ((i + 1 : Nat) : Int) ((es.length : Int) - 1) = ((i + 1 : Nat) : Int) by omega]

theorem redoStep_end (es : List Entry) (i : Nat) (hi : es.length ≤ i + 1) :
    redoStep (idxState es i) = (idxState es i, none) := by
  unfold redoStep idxState
  rw [show ((i : Nat) : Int) + 1 = ((i + 1 : Nat) : Int) by push_cast; ring]
  rw [getAt_coe, List.get?_eq_none.mpr hi]

theorem iterRedo_idxState : ∀ (k : Nat) (es : List Entry) (i : Nat), i < es.length →
    iterRedo k (idxState es i) =
      (idxState es (min (i + k) (es.length - 1)),
        (List.range' (i + 1) (min (i + k) (es.length - 1) - i)).map (recAt es))
  | 0, es, i, hi => by
      have h1 : min (i + 0) (es.length - 1) = i := by omega
      simp only [iterRedo, h1, Nat.sub_self]
      rfl
  | k + 1, es, i, hi => by
      by_cases hend : i + 1 < es.length
      · simp only [iterRedo]
        rw [redoStep_at es i hend]
        rw [iterRedo_idxState k es (i + 1) (by omega)]
        dsimp only
        have hm : min (i + 1 + k) (es.length - 1) = min (i + (k + 1)) (es.length - 1) := by
          omega
        rw [hm]
        have hm2 : min (i + (k + 1)) (es.length - 1) - i =
            (min (i + (k + 1)) (es.length - 1) - (i + 1)) + 1 := by omega
        rw [hm2, List.range'_succ, List.map_cons]
        rfl
      · simp only [iterRedo]
        rw [redoStep_end es i (by omega)]
        rw [iterRedo_idxState k es i hi]
        dsimp only
        have h1 : min (i + k) (es.length - 1) = i := by omega
        have h2 : min (i + (k + 1)) (es.length - 1) = i := by omega
        rw [h1, h2, Nat.sub_self]
        rfl

theorem recAt_range_aux : ∀ (rs : List Record) (pre : List Entry),
    (List.range' pre.length rs.length).map (recAt (pre ++ entriesOf rs)) = rs
  | [], pre => by simp
  | r :: rs, pre => by
      rw [show (r :: rs).length = rs.length + 1 from rfl, List.range'_succ, List.map_cons]
      congr 1
      · unfold recAt
        rw [List.get?_append_right (le_refl pre.length), Nat.sub_self]
        rfl
      · have key := recAt_range_aux rs (pre ++ [{ record := r, timestamp := 0 }])
        rw [List.append_assoc] at key
        have hE : (({ record := r, timestamp := 0 } : Entry) :: entriesOf rs) =
            entriesOf (r :: rs) := rfl
        rw [List.singleton_append, hE] at key
        have hL : (pre ++ [({ record := r, timestamp := 0 } : Entry)]).length =
            pre.length + 1 := by simp
        rw [hL] at key
        exact key

theorem recAt_range (rs : List Record) :
    (List.range' 0 rs.length).map (recAt (entriesOf rs)) = rs := by
  have key := recAt_range_aux rs []
  simpa using key

/-- Claim C3 (amended): for every non-empty sequence of at most
HISTORY_LIMIT + 1 recorded edits (overwrite false) from a fresh session,
n undo calls followed by n redo calls walk the textarea through exactly
the recorded sequence of records, in order: the textarea after the undos
holds the first record, the successful redos emit the remaining records
in order, and the final textarea holds the last record.  Beyond
HISTORY_LIMIT + 1 edits the capacity trimming drops the oldest records
and the round trip no longer restores them. -/
theorem C3_roundtrip (rs : List Record) (b : Record)
    (hne : rs ≠ []) (hlen : rs.length ≤ HISTORY_LIMIT + 1) :
    (iterUndo rs.length (recordSession { history := emptyHistory, input := b } rs)).input ::
      (iterRedo rs.length
        (iterUndo rs.length (recordSession { history := emptyHistory, input := b } rs))).2 = rs ∧
    (iterRedo rs.length
      (iterUndo rs.length (recordSession { history := emptyHistory, input := b } rs))).1.input =
      rs.getLastD b := by
  have hpos : 0 < rs.length := List.length_pos.mpr hne
  have hrec : recordSession { history := emptyHistory, input := b } rs = midState rs b := by
    have h0 : midState [] b = { history := emptyHistory, input := b } := rfl
    rw [← h0, recordSession_steps rs [] b (by simpa using hlen)]
    simp
  have hmid : midState rs b = idxState (entriesOf rs) (rs.length - 1) := by
    unfold midState idxState
    congr 1
    · congr 1
      omega
    · rw [recAt_entriesOf_last rs b hne]
  rw [hrec, hmid]
  have hilt : rs.length - 1 < (entriesOf rs).length := by
    rw [entriesOf_length]
    omega
  rw [iterUndo_idxState rs.length (entriesOf rs) (rs.length - 1) hilt]
  rw [show rs.length - 1 - rs.length = 0 by omega]
  have h0lt : 0 < (entriesOf rs).length := by
    rw [entriesOf_length]
    exact hpos
  rw [iterRedo_idxState rs.length (entriesOf rs) 0 h0lt]
  dsimp only
  have hmin : min (0 + rs.length) ((entriesOf rs).length - 1) = rs.length - 1 := by
    rw [entriesOf_length]
    omega
  rw [hmin]
  constructor
  · have hcons : List.range' 0 rs.length = 0 :: List.range' 1 (rs.length - 1) := by
      rw [show rs.length = (rs.length - 1) + 1 by omega, List.range'_succ]
      simp
    have hall := recAt_range rs
    rw [hcons, List.map_cons] at hall
    rw [show rs.length - 1 - 0 = rs.length - 1 from rfl, show (0 : Nat) + 1 = 1 from rfl]
    unfold idxState
    exact hall
  · unfold idxState
    exact recAt_entriesOf_last rs b hne

/-- Claim C3 witness: two recorded edits, two undos, two redos walk the
textarea back through both records in order. -/
theorem C3_witness :
    (iterUndo 2 (recordSession { history := emptyHistory, input := defaultRecord } rsW)).input ::
      (iterRedo 2 (iterUndo 2
        (recordSession { history := emptyHistory, input := defaultRecord } rsW))).2 = rsW ∧
    (iterRedo 2 (iterUndo 2
      (recordSession { history := emptyHistory, input := defaultRecord } rsW))).1.input =
      rsW.getLastD defaultRecord := by
  exact C3_roundtrip rsW defaultRecord (by decide) (by decide)

theorem recordChange_false_eq_full (h : History) (r : Record) (ts : Int)
    (hoff : h.offset = (h.stack.length : Int) - 1)
    (hlen : h.stack.length = HISTORY_LIMIT + 1) :
    recordChange h r false ts =
      { stack := jsSlice h.stack 1 (HISTORY_LIMIT + 1) ++
          [{ record := r, timestamp := ts }],
        offset := ((HISTORY_LIMIT : Nat) : Int) } := by
  have hH : HISTORY_LIMIT = 100 := rfl
  have h0 : 0 ≤ h.offset := by omega
  have h1 : h.offset ≤ (h.stack.length : Int) - 1 := by omega
  have hbig : h.offset.toNat + 1 > HISTORY_LIMIT := by omega
  unfold recordChange
  rw [truncAndTrim_eq_big h h0 h1 hbig]
  dsimp only
  rw [show h.offset.toNat + 1 - HISTORY_LIMIT = 1 by omega]
  rw [show h.offset.toNat + 1 = HISTORY_LIMIT + 1 by omega]
  simp only [Bool.false_eq_true, if_false]
  congr 1

theorem applyEdits_step_full (us : List Record) (b r : Record)
    (hlen : us.length = HISTORY_LIMIT + 1) :
    applyEdits (midState us b) r 0 = overState us r := by
  unfold applyEdits updateInput overState
  rw [captureSelection_midState]
  dsimp only
  rw [recordChange_false_eq_full (midState us b).history r 0
    (by simp [midState, entriesOf_length]) (by simp [midState, entriesOf_length, hlen])]
  unfold midState
  dsimp only
  congr 2
  rw [entriesOf_append]
  congr 1
  unfold jsSlice
  rw [show HISTORY_LIMIT + 1 = (entriesOf us).length by rw [entriesOf_length, hlen]]
  rw [List.take_length]
  unfold entriesOf
  rw [List.map_drop]

/-- Claim C3 counterexample: with 102 recorded edits the capacity trimming
drops the first record, so 102 undos followed by 102 redos walk through
only 101 records — the recorded sequence is not restored. -/
theorem C3_counterexample :
    ¬ ((iterUndo 102 (recordSession { history := emptyHistory, input := defaultRecord } rs102)).input ::
        (iterRedo 102 (iterUndo 102
          (recordSession { history := emptyHistory, input := defaultRecord } rs102))).2 = rs102) := by
  have hH : HISTORY_LIMIT = 100 := rfl
  have hsplit : rs102 = rs101 ++ [recI 101] := by
    unfold rs102 rs101
    rw [show (102 : Nat) = 101 + 1 from rfl, List.range_succ, List.map_append]
    rfl
  have hrs101_len : rs101.length = 101 := by
    simp [rs101]
  have hvs_len : vs101.length = HISTORY_LIMIT + 1 := by
    simp [vs101, hrs101_len, hH]
  have hvs_ne : vs101 ≠ [] := by
    intro hx
    rw [hx] at hvs_len
    simp at hvs_len
  have hrec101 : recordSession { history := emptyHistory, input := defaultRecord } rs101 =
      midState rs101 defaultRecord := by
    have h0 : midState [] defaultRecord =
        { history := emptyHistory, input := defaultRecord } := rfl
    rw [← h0, recordSession_steps rs101 [] defaultRecord (by rw [hrs101_len]; rfl)]
    simp
  have hrec102 : recordSession { history := emptyHistory, input := defaultRecord } rs102 =
      overState rs101 (recI 101) := by
    rw [hsplit]
    show List.foldl (fun s r => applyEdits s r 0)
      { history := emptyHistory, input := defaultRecord } (rs101 ++ [recI 101]) = _
    rw [List.foldl_append]
    show applyEdits (recordSession { history := emptyHistory, input := defaultRecord } rs101)
      (recI 101) 0 = _
    rw [hrec101, applyEdits_step_full rs101 defaultRecord (recI 101) (by rw [hrs101_len]; rfl)]
  have hidx : overState rs101 (recI 101) = idxState (entriesOf vs101) HISTORY_LIMIT := by
    unfold overState idxState
    rw [show rs101.drop 1 ++ [recI 101] = vs101 from rfl]
    congr 1
  intro hcontra
  rw [hrec102, hidx] at hcontra
  rw [iterUndo_idxState 102 (entriesOf vs101) HISTORY_LIMIT
    (by rw [entriesOf_length]; omega)] at hcontra
  rw [show HISTORY_LIMIT - 102 = 0 by omega] at hcontra
  rw [iterRedo_idxState 102 (entriesOf vs101) 0
    (by rw [entriesOf_length]; omega)] at hcontra
  have hlen_eq := congrArg List.length hcontra
  dsimp only at hlen_eq
  rw [show min (0 + 102) ((entriesOf vs101).length - 1) = 100 by
    rw [entriesOf_length, hvs_len, hH]; omega] at hlen_eq
  simp only [List.length_cons, List.length_map, List.length_range'] at hlen_eq
  rw [show rs102.length = 102 by simp [rs102]] at hlen_eq
  omega

end CodeEditor
